import Mathlib

/-!
# search-result: filter sidebar, category tree reconciler and page stabilizer

A shallow embedding of `react/components/FilterSidebar.js` and
`react/components/SearchQuery.js`.

Conventions of the embedding

* A JavaScript exception (a `TypeError` raised inside an immer recipe or a
  React state updater) is the `none` of an `Option`.
* React state is passed explicitly: a handler takes the state of the render
  whose closure it belongs to and returns the state after its `setState`
  calls have been processed, together with the calls it made to the
  callback props.
* A JavaScript number is an IEEE double. The numbers of the program are
  `NaN`, an infinity or an integer-valued double (`JSNumber`): a page parsed by
  `parseInt`, the page size, and their sums, differences and products. Each
  operation rounds the exact integer result to the nearest double, ties to the
  even significand, and overflows to an infinity (`roundDouble`). The sign of
  zero is not tracked.
* The state cell `open` of `FilterSidebar` is the field `isOpen`.
* A category node is `{ value, selected, children }`; an absent `selected`
  reads as `false` and an absent `children` as the empty array (every array
  method the program calls on the children of a node raises on `undefined`
  exactly where the model returns `none` on `[]`, because the batch is not
  empty there).
-/

namespace SearchResult

/-! ## Data model -/

/-- A facet operation `{ value, map }` (FilterSidebar.js, the elements of
`filterOperations` and of `categoryTreeOperations`). -/
structure FacetOperation where
  value : String
  map : String
deriving DecidableEq, Repr

/-- A node of the category tree: `{ value, selected, children }`. -/
inductive Category where
  | mk (value : String) (selected : Bool) (children : List Category)
deriving Repr

namespace Category

/-- Field `value` of a node. -/
def value : Category → String
  | mk v _ _ => v

/-- Field `selected` of a node. -/
def selected : Category → Bool
  | mk _ s _ => s

/-- Field `children` of a node. -/
def children : Category → List Category
  | mk _ _ c => c

end Category

/-! ## FilterSidebar.js: `updateTree` -/

/-- The `categories.forEach` loop of `updateTree` (lines 191-199), run on the
level the cursor `currentLevel` points to; the result is that level after the
mutations of the draft. `findIndex` returning `-1` makes
`currentLevel[selectedIndex].selected` raise a `TypeError`: `none`. -/
def forEachToggle : List FacetOperation → List Category → Option (List Category)
  | [], currentLevel => some currentLevel
  | category :: rest, currentLevel =>
    match currentLevel.findIdx? (fun cat => cat.value == category.value) with
    | none => none
    | some selectedIndex =>
      match currentLevel[selectedIndex]? with
      | none => none
      | some node =>
        (forEachToggle rest node.children).map fun children =>
          currentLevel.set selectedIndex
            (Category.mk node.value (!node.selected) children)

/-- The loop test of `updateTree` (lines 183-186), negated as in the source:
the descent stops when the value of `categories[0]` occurs at the level or no
sibling is selected. -/
def descentStops (first : String) (currentLevel : List Category) : Bool :=
  (currentLevel.find? (fun category => category.value == first)).isSome
    || currentLevel.all (fun category => !category.selected)

/-- The `while` loop of `updateTree` (lines 182-189) followed by the `forEach`
loop, on the level the cursor points to. One iteration moves the cursor to
`currentLevel.find(category => category.selected).children`; the mutations made
below are written back at the position of that node. -/
def whileDescend (first : String) (categories : List FacetOperation)
    (currentLevel : List Category) : Option (List Category) :=
  if descentStops first currentLevel then
    forEachToggle categories currentLevel
  else
    match _hi : currentLevel.findIdx? (fun category => category.selected) with
    | none => none
    | some i =>
      match _hn : currentLevel[i]? with
      | none => none
      | some node =>
        (whileDescend first categories node.children).map fun children =>
          currentLevel.set i (Category.mk node.value node.selected children)
termination_by sizeOf currentLevel
decreasing_by
  have hm : node ∈ currentLevel := by
    rw [List.getElem?_eq_some_iff] at _hn
    obtain ⟨hlt, rfl⟩ := _hn
    exact List.getElem_mem _
  have hlt := List.sizeOf_lt_of_mem hm
  cases node
  simp [Category.children] at *
  omega

/-- `updateTree(categories)(tree)` (lines 174-200): the immer producer applied
to a tree. `none` is the exception raised by the recipe. -/
def updateTree (categories : List FacetOperation) (draft : List Category) :
    Option (List Category) :=
  match categories with
  | [] => some draft
  | first :: _ => whileDescend first.value categories draft

/-! ## FilterSidebar.js: `useCategoryTree` -/

/-- One render of `useCategoryTree` after the first, with its effects run
(lines 212-224). `tree` is the local state before the render;
`initialTreeChanged` and `operationsChanged` say whether React sees a new
reference in the dependency. The first effect queues `setTree(initialTree)`,
the second queues `setTree(updateTree(categoryTreeOperations))`; React applies
the queue in order. -/
def useCategoryTree (tree initialTree : List Category)
    (categoryTreeOperations : List FacetOperation)
    (initialTreeChanged operationsChanged : Bool) : Option (List Category) :=
  let afterFirst := if initialTreeChanged then initialTree else tree
  if operationsChanged || initialTreeChanged then
    updateTree categoryTreeOperations afterFirst
  else
    some afterFirst

/-- The first render of `useCategoryTree`: `useState(initialTree)` and both
effects run. -/
def useCategoryTreeMount (initialTree : List Category)
    (categoryTreeOperations : List FacetOperation) : Option (List Category) :=
  useCategoryTree initialTree initialTree categoryTreeOperations true true

/-! ## FilterSidebar.js: the handlers of `FilterSidebar` -/

/-- The three `useState` cells of `FilterSidebar` (lines 37, 40, 41). -/
structure SidebarState where
  isOpen : Bool
  filterOperations : List FacetOperation
  categoryTreeOperations : List FacetOperation
deriving DecidableEq, Repr

/-- A call `navigateToFacet(operations, preventRouteChange)`. -/
structure NavigateCall where
  operations : List FacetOperation
  preventRouteChange : Bool
deriving DecidableEq, Repr

/-- `isFilterSelected` (lines 45-50). The second conjunct compares
`filter.map` with itself, as the source does. -/
def isFilterSelected (filters : List FacetOperation) (filter : FacetOperation) :
    Option FacetOperation :=
  filters.find? fun filterOperation =>
    filter.value == filterOperation.value && filter.map == filter.map

/-- `handleFilterCheck` (lines 52-60). -/
def handleFilterCheck (s : SidebarState) (filter : FacetOperation) : SidebarState :=
  if !(isFilterSelected s.filterOperations filter).isSome then
    { s with filterOperations := s.filterOperations ++ [filter] }
  else
    { s with filterOperations :=
        s.filterOperations.filter fun facet => facet.value != filter.value }

/-- `handleApply` (lines 70-74). -/
def handleApply (s : SidebarState) (preventRouteChange : Bool) :
    SidebarState × List NavigateCall :=
  ({ s with isOpen := false, filterOperations := [] },
   [{ operations := s.filterOperations, preventRouteChange := preventRouteChange }])

/-- `handleClearFilters` (lines 76-79). -/
def handleClearFilters (s : SidebarState) : SidebarState × List NavigateCall :=
  ({ s with filterOperations := [], isOpen := false }, [])

/-- The argument of `handleUpdateCategories`: one operation or an array. -/
inductive MaybeCategories where
  | single (category : FacetOperation)
  | array (categories : List FacetOperation)
deriving Repr

/-- The normalisation `Array.isArray(maybeCategories) ? maybeCategories :
[maybeCategories]` (lines 82-84). -/
def normalizeCategories : MaybeCategories → List FacetOperation
  | .single category => [category]
  | .array categories => categories

/-- `handleUpdateCategories` (lines 81-98). -/
def handleUpdateCategories (s : SidebarState) (maybeCategories : MaybeCategories) :
    SidebarState :=
  let categories := normalizeCategories maybeCategories
  let categoriesSelected := s.filterOperations.filter fun op => op.map == "c"
  let newCategories := categoriesSelected ++ categories
  { s with
    categoryTreeOperations := categories
    filterOperations :=
      (s.filterOperations.filter fun operations => operations.map != "c") ++ newCategories }

/-! ## SearchQuery.js -/

/-- A JavaScript number as the program uses it: `NaN`, `Infinity` or
`-Infinity` (`inf true`), or a double whose value is the integer `n`. -/
inductive JSNumber where
  | nan
  | inf (negative : Bool)
  | num (n : Int)
deriving DecidableEq, Repr

/-- The distance between neighbouring doubles at a magnitude `x`: 1 below
`2^53`, doubling with each further binary digit. The first argument bounds
the number of halvings; 1024 covers every finite double. -/
def ulpOf : Nat → Nat → Nat
  | 0, _ => 1
  | fuel + 1, x => if x < 2 ^ 53 then 1 else 2 * ulpOf fuel (x / 2)

/-- The double nearest to an integer (IEEE 754 round to nearest, ties to the
even significand): the magnitude is rounded to a multiple of its `ulpOf`, and
a result of `2^1024` (written `(2^128)^8`) or more is an infinity. -/
def roundDouble (x : Int) : JSNumber :=
  let a := x.natAbs
  let u := ulpOf 1024 a
  let q := a / u
  let r := a % u
  let q := if u < 2 * r ∨ (2 * r = u ∧ q % 2 = 1) then q + 1 else q
  let m := q * u
  if (2 ^ 128) ^ 8 ≤ m then .inf (decide (x < 0))
  else .num (if x < 0 then -(m : Int) else (m : Int))

/-- The largest magnitude below which every integer and its neighbours are
doubles: `2^53`. -/
def exactBound : Nat := 2 ^ 53

namespace JSNumber

/-- JavaScript `-a`. -/
def neg : JSNumber → JSNumber
  | nan => nan
  | inf s => inf (!s)
  | num a => num (-a)

/-- JavaScript `a + b`. -/
def add : JSNumber → JSNumber → JSNumber
  | num a, num b => roundDouble (a + b)
  | inf s, inf t => if s = t then inf s else nan
  | inf s, num _ => inf s
  | num _, inf t => inf t
  | _, _ => nan

/-- JavaScript `a - b`, which is `a + (-b)`. -/
def sub (a b : JSNumber) : JSNumber :=
  a.add b.neg

/-- JavaScript `a * b`. -/
def mul : JSNumber → JSNumber → JSNumber
  | num a, num b => roundDouble (a * b)
  | inf s, inf t => inf (xor s t)
  | inf s, num b => if b = 0 then nan else inf (xor s (decide (b < 0)))
  | num a, inf t => if a = 0 then nan else inf (xor (decide (a < 0)) t)
  | _, _ => nan

end JSNumber

/-- `const DEFAULT_PAGE = 1` (line 8). -/
def DEFAULT_PAGE : JSNumber := .num 1

/-- The characters `parseInt` skips at the start of its argument
(ECMAScript `StrWhiteSpaceChar`). -/
def isStrWhiteSpaceChar (c : Char) : Bool :=
  c.val == 0x09 || c.val == 0x0A || c.val == 0x0B || c.val == 0x0C || c.val == 0x0D
    || c.val == 0x20 || c.val == 0xA0 || c.val == 0x1680
    || (0x2000 ≤ c.val && c.val ≤ 0x200A)
    || c.val == 0x2028 || c.val == 0x2029 || c.val == 0x202F || c.val == 0x205F
    || c.val == 0x3000 || c.val == 0xFEFF

/-- The value of a character as a digit in radix `radix`, if it is one. -/
def digitValue (radix : Nat) (c : Char) : Option Nat :=
  let v :=
    if '0' ≤ c ∧ c ≤ '9' then some (c.toNat - '0'.toNat)
    else if 'a' ≤ c ∧ c ≤ 'z' then some (c.toNat - 'a'.toNat + 10)
    else if 'A' ≤ c ∧ c ≤ 'Z' then some (c.toNat - 'A'.toNat + 10)
    else none
  v.bind fun d => if d < radix then some d else none

/-- The longest run of radix digits at the start of the input, as digit values. -/
def leadingDigits (radix : Nat) : List Char → List Nat
  | [] => []
  | c :: cs =>
    match digitValue radix c with
    | some d => d :: leadingDigits radix cs
    | none => []

/-- ECMAScript `parseInt(string)` with no radix argument: leading white space
is skipped, a sign is read, a `0x` or `0X` start selects radix 16, and the
longest run of digits is the value, returned as the double nearest to it; with
no digit the result is `NaN`. (Past the 20th significant digit ECMAScript
lets an engine read further digits as 0; the value taken here is the exact
one.) -/
def parseInt (string : String) : JSNumber :=
  let s := string.toList.dropWhile isStrWhiteSpaceChar
  let negative := s.head? == some '-'
  let s := if s.head? == some '-' || s.head? == some '+' then s.tail else s
  let hex := s.take 2 == ['0', 'x'] || s.take 2 == ['0', 'X']
  let radix := if hex then 16 else 10
  let s := if hex then s.drop 2 else s
  match leadingDigits radix s with
  | [] => .nan
  | ds =>
    let n : Int := (ds.foldl (fun acc d => acc * radix + d) 0 : Nat)
    roundDouble (if negative then -n else n)

/-- The argument `page` of the call of `useCorrectPage` in `SearchQuery`
(line 135): `pageQuery ? parseInt(pageQuery) : DEFAULT_PAGE`. An absent
`pageQuery` is `none`; a string is truthy when it is not empty. -/
def requestedPage (pageQuery : Option String) : JSNumber :=
  match pageQuery with
  | none => DEFAULT_PAGE
  | some s => if s ≠ "" then parseInt s else DEFAULT_PAGE

/-- The four refs of `useCorrectPage` (lines 59-62). -/
structure PageRefs where
  pageRef : JSNumber
  queryRef : String
  mapRef : String
  orderByRef : String
deriving DecidableEq, Repr

/-- The argument object of `useCorrectPage`. -/
structure PageArgs where
  page : JSNumber
  query : String
  map : String
  orderBy : String
deriving DecidableEq, Repr

/-- The refs as `useRef` creates them on the first render (lines 59-62). -/
def mountRefs (a : PageArgs) : PageRefs :=
  { pageRef := a.page, queryRef := a.query, mapRef := a.map, orderByRef := a.orderBy }

/-- One evaluation of `useCorrectPage` on existing refs (lines 63-71): the
refs afterwards and the page returned. -/
def useCorrectPage (refs : PageRefs) (a : PageArgs) : PageRefs × JSNumber :=
  let refs :=
    if refs.queryRef != a.query || refs.mapRef != a.map || refs.orderByRef != a.orderBy then
      { refs with pageRef := DEFAULT_PAGE }
    else refs
  (refs, refs.pageRef)

/-- The pages returned by successive evaluations of `useCorrectPage` on the
same refs. -/
def useCorrectPageRun (refs : PageRefs) : List PageArgs → List JSNumber
  | [] => []
  | a :: rest => (useCorrectPage refs a).2 :: useCorrectPageRun (useCorrectPage refs a).1 rest

/-- The pages returned by a mounted component: the first evaluation creates
the refs from its own arguments. -/
def useCorrectPageMounted : List PageArgs → List JSNumber
  | [] => []
  | a :: rest => useCorrectPageRun (mountRefs a) (a :: rest)

/-- The offsets `from` and `to` of `SearchQuery` (lines 140-141), in double
arithmetic. The prop `maxItemsPerPage` is the double nearest to the integer
given. -/
def offsets (page : JSNumber) (maxItemsPerPage : Int) : JSNumber × JSNumber :=
  let from_ := (page.sub (.num 1)).mul (roundDouble maxItemsPerPage)
  let to_ := (from_.add (roundDouble maxItemsPerPage)).sub (.num 1)
  (from_, to_)

/-- The values `page`, `from` and `to` of one render of `SearchQuery`
(lines 134-141) on existing refs, with the refs afterwards. -/
def searchQueryRender (refs : PageRefs) (pageQuery : Option String)
    (query map orderBy : String) (maxItemsPerPage : Int) :
    PageRefs × JSNumber × JSNumber × JSNumber :=
  let r := useCorrectPage refs
    { page := requestedPage pageQuery, query := query, map := map, orderBy := orderBy }
  (r.1, r.2, offsets r.2 maxItemsPerPage)

/-- The first render of `SearchQuery`: the refs are created from the arguments
of this render. -/
def searchQueryMount (pageQuery : Option String) (query map orderBy : String)
    (maxItemsPerPage : Int) : PageRefs × JSNumber × JSNumber × JSNumber :=
  searchQueryRender
    (mountRefs
      { page := requestedPage pageQuery, query := query, map := map, orderBy := orderBy })
    pageQuery query map orderBy maxItemsPerPage

/-! ## Observing a tree

The statements about `updateTree` describe a tree by what is found at each
position: a position is the list of child indices leading from the root
level to a node. -/

/-- The node of a tree at a position; the empty position names no node. -/
def nodeAt : List Category → List Nat → Option Category
  | _, [] => none
  | level, [i] => level[i]?
  | level, i :: j :: p =>
    match level[i]? with
    | none => none
    | some node => nodeAt node.children (j :: p)

/-- What a node shows without looking below it: its value, its `selected`
flag and the number of its children. -/
def Category.view (node : Category) : String × Bool × Nat :=
  (node.value, node.selected, node.children.length)

/-- `FlippedAt ps t r`: the tree `r` is the tree `t` with the `selected` flag
negated at the positions in `ps` and nothing else changed: the root levels have
the same length and at every position both trees have a node or neither has,
with the same value, the same number of children, and the same flag unless the
position is in `ps`. -/
def FlippedAt (ps : List (List Nat)) (t r : List Category) : Prop :=
  r.length = t.length ∧
    ∀ q : List Nat, (nodeAt r q).map Category.view =
      (nodeAt t q).map fun node =>
        (node.value, xor node.selected (decide (q ∈ ps)), node.children.length)

/-- The level where the descent stops and the position of the node whose
children it is (`[]` for the root level): starting at the given level, go to
the children of the first selected sibling until the value `first` occurs at
the level or no sibling is selected. -/
def stopLevel (first : String) (level : List Category) : List Nat × List Category :=
  if (∃ node ∈ level, node.value = first) ∨ (∀ node ∈ level, node.selected = false) then
    ([], level)
  else
    match _hi : level.findIdx? (fun node => node.selected) with
    | none => ([], level)
    | some i =>
      match _hn : level[i]? with
      | none => ([], level)
      | some node =>
        let r := stopLevel first node.children
        (i :: r.1, r.2)
termination_by sizeOf level
decreasing_by
  have hm : node ∈ level := by
    rw [List.getElem?_eq_some_iff] at _hn
    obtain ⟨hlt, rfl⟩ := _hn
    exact List.getElem_mem _
  have hlt := List.sizeOf_lt_of_mem hm
  cases node
  simp [Category.children] at *
  omega

/-- The positions, relative to a level, of the nodes a batch matches from that
level on: the first operation is matched by the first node of the level with
its value, each later one by the first node with its value among the children
of the node matched before. `none` when some operation has no such node. -/
def matchedFrom : List FacetOperation → List Category → Option (List (List Nat))
  | [], _ => some []
  | c :: rest, level =>
    match level.findIdx? (fun node => node.value == c.value) with
    | none => none
    | some i =>
      match level[i]? with
      | none => none
      | some node =>
        (matchedFrom rest node.children).map fun ps => [i] :: ps.map (i :: ·)

/-- The positions in the tree of the nodes matched by a batch that resolves in
the tree, `none` when the batch does not resolve. -/
def resolve (batch : List FacetOperation) (t : List Category) : Option (List (List Nat)) :=
  match batch with
  | [] => some []
  | c :: _ =>
    (matchedFrom batch (stopLevel c.value t).2).map fun ps =>
      ps.map ((stopLevel c.value t).1 ++ ·)

/-! ## Lemmas on the tree functions -/

/-- Field `value` of a constructed node. -/
@[simp] theorem Category.value_mk (v : String) (s : Bool) (c : List Category) :
    (Category.mk v s c).value = v := rfl

/-- Field `selected` of a constructed node. -/
@[simp] theorem Category.selected_mk (v : String) (s : Bool) (c : List Category) :
    (Category.mk v s c).selected = s := rfl

/-- Field `children` of a constructed node. -/
@[simp] theorem Category.children_mk (v : String) (s : Bool) (c : List Category) :
    (Category.mk v s c).children = c := rfl

/-- A node is rebuilt from its three fields. -/
theorem Category.mk_eta (node : Category) :
    Category.mk node.value node.selected node.children = node := by
  cases node; rfl

/-- One step of `nodeAt`: the first index selects a sibling, the rest is looked up
among its children. -/
theorem nodeAt_cons (level : List Category) (i : Nat) (p : List Nat) :
    nodeAt level (i :: p) =
      match level[i]? with
      | none => none
      | some node => if p = [] then some node else nodeAt node.children p := by
  cases p with
  | nil => cases h : level[i]? <;> simp [nodeAt, h]
  | cons j p => cases h : level[i]? <;> simp [nodeAt, h]

/-- A tree is itself with no flag negated. -/
theorem flippedAt_nil (t : List Category) : FlippedAt [] t t := by
  refine ⟨rfl, fun q => ?_⟩
  cases h : nodeAt t q <;> simp [Category.view]

/-- Writing back at index `i` a node with the same value, its flag negated when
`b` holds, and children that are the old ones negated at `ps`, negates the
level at `[i]` (when `b` holds) and at the positions of `ps` below `i`. -/
theorem flippedAt_set (level : List Category) (i : Nat) (node : Category)
    (children : List Category) (ps : List (List Nat)) (b : Bool)
    (hn : level[i]? = some node) (hch : FlippedAt ps node.children children)
    (hne : [] ∉ ps) :
    FlippedAt ((if b then [[i]] else []) ++ ps.map (i :: ·)) level
      (level.set i (Category.mk node.value (xor node.selected b) children)) := by
  obtain ⟨hlen, hq⟩ := hch
  have hi : i < level.length := by
    rw [List.getElem?_eq_some_iff] at hn
    exact hn.1
  refine ⟨by simp, fun q => ?_⟩
  cases q with
  | nil => simp [nodeAt]
  | cons j p =>
    rw [nodeAt_cons, nodeAt_cons]
    by_cases hji : i = j
    · subst hji
      rw [List.getElem?_set_self hi, hn]
      by_cases hp : p = []
      · subst hp
        cases b <;> simp [Category.view, Category.value, Category.selected, Category.children, hlen, hne]
      · have := hq p
        simp only [hp, if_false, Category.children_mk]
        rw [this]
        cases h : nodeAt node.children p with
        | none => simp
        | some n =>
          cases b <;> simp [hp]
    · rw [List.getElem?_set_ne hji]
      cases h : level[j]? with
      | none => simp
      | some n =>
        have hmem : (j :: p) ∉ (if b then [[i]] else []) ++ ps.map (i :: ·) := by
          cases b <;> simp [hji]
          intro h1
          exact absurd h1.symm hji
        have hd := decide_eq_false hmem
        by_cases hp : p = []
        · subst hp
          simp only [if_true, Option.map_some', Category.view, hd, Bool.xor_false]
        · simp only [hp, if_false]
          cases h2 : nodeAt n.children p with
          | none => simp
          | some m => simp only [Option.map_some', Category.view, hd, Bool.xor_false]

/-- The index found by `findIdx?` holds a node, and the node passes the test. -/
theorem getElem?_of_findIdx? {p : Category → Bool} {level : List Category} {i : Nat}
    (h : level.findIdx? p = some i) : ∃ node, level[i]? = some node ∧ p node = true := by
  rw [List.findIdx?_eq_some_iff_getElem] at h
  obtain ⟨hlt, hp, _⟩ := h
  exact ⟨level[i], by simp [hlt], hp⟩

/-- What a successful `matchedFrom` on a non-empty batch found. -/
theorem matchedFrom_cons_eq (c : FacetOperation) (rest : List FacetOperation)
    (level : List Category) (ps : List (List Nat))
    (h : matchedFrom (c :: rest) level = some ps) :
    ∃ i node qs, level.findIdx? (fun node => node.value == c.value) = some i ∧
      level[i]? = some node ∧ matchedFrom rest node.children = some qs ∧
      ps = [i] :: qs.map (i :: ·) := by
  unfold matchedFrom at h
  cases hi : level.findIdx? (fun node => node.value == c.value) with
  | none => simp [hi] at h
  | some i =>
    obtain ⟨node, hn, _⟩ := getElem?_of_findIdx? hi
    simp only [hi, hn] at h
    cases hm : matchedFrom rest node.children with
    | none => simp [hm] at h
    | some qs =>
      simp only [hm, Option.map_some', Option.some.injEq] at h
      exact ⟨i, node, qs, rfl, hn, hm, h.symm⟩

/-- The empty position is never matched. -/
theorem nil_not_mem_matchedFrom (cs : List FacetOperation) (level : List Category)
    (ps : List (List Nat)) (h : matchedFrom cs level = some ps) : [] ∉ ps := by
  cases cs with
  | nil =>
    simp only [matchedFrom, Option.some.injEq] at h
    subst h
    exact List.not_mem_nil _
  | cons c rest =>
    obtain ⟨i, node, qs, _, _, _, rfl⟩ := matchedFrom_cons_eq c rest level ps h
    intro hmem
    rcases List.mem_cons.1 hmem with h1 | h1
    · cases h1
    · obtain ⟨q, _, hq⟩ := List.mem_map.1 h1
      cases hq

/-- The `forEach` loop negates exactly the matched positions of the level. -/
theorem forEachToggle_flipped (cs : List FacetOperation) :
    ∀ (level : List Category) (ps : List (List Nat)), matchedFrom cs level = some ps →
      ∃ r, forEachToggle cs level = some r ∧ FlippedAt ps level r := by
  induction cs with
  | nil =>
    intro level ps h
    simp only [matchedFrom, Option.some.injEq] at h
    subst h
    exact ⟨level, rfl, flippedAt_nil level⟩
  | cons c rest ih =>
    intro level ps h
    obtain ⟨i, node, qs, hi, hn, hm, rfl⟩ := matchedFrom_cons_eq c rest level ps h
    obtain ⟨r, hr, hfl⟩ := ih node.children qs hm
    refine ⟨level.set i (Category.mk node.value (!node.selected) r), ?_, ?_⟩
    · simp [forEachToggle, hi, hn, hr]
    · have := flippedAt_set level i node r qs true hn hfl
        (nil_not_mem_matchedFrom rest node.children qs hm)
      simpa using this

/-- The loop test of the source, in words. -/
theorem descentStops_iff (first : String) (level : List Category) :
    descentStops first level = true ↔
      ((∃ node ∈ level, node.value = first) ∨ (∀ node ∈ level, node.selected = false)) := by
  simp [descentStops]

/-- The stop level of a level where the descent stops is that level. -/
theorem stopLevel_of_stops (first : String) (level : List Category)
    (h : descentStops first level = true) : stopLevel first level = ([], level) := by
  rw [stopLevel.eq_1, if_pos ((descentStops_iff first level).1 h)]

/-- The stop level of a level where the descent goes on into `node`. -/
theorem stopLevel_of_step (first : String) (level : List Category) (i : Nat) (node : Category)
    (h : ¬ descentStops first level = true)
    (hi : level.findIdx? (fun node => node.selected) = some i) (hn : level[i]? = some node) :
    stopLevel first level =
      (i :: (stopLevel first node.children).1, (stopLevel first node.children).2) := by
  rw [stopLevel.eq_1, if_neg (mt (descentStops_iff first level).2 h)]
  split
  · next h1 => rw [hi] at h1; cases h1
  · next j h1 =>
    rw [hi] at h1; cases h1
    split
    · next h2 => rw [hn] at h2; cases h2
    · next m h2 => rw [hn] at h2; cases h2; rfl

/-- Unfolding of `whileDescend` where the loop ends. -/
theorem whileDescend_of_stops (first : String) (cs : List FacetOperation)
    (level : List Category) (h : descentStops first level = true) :
    whileDescend first cs level = forEachToggle cs level := by
  rw [whileDescend.eq_1, if_pos h]

/-- Unfolding of `whileDescend` on one iteration of the loop. -/
theorem whileDescend_of_step (first : String) (cs : List FacetOperation)
    (level : List Category) (i : Nat) (node : Category)
    (h : ¬ descentStops first level = true)
    (hi : level.findIdx? (fun node => node.selected) = some i) (hn : level[i]? = some node) :
    whileDescend first cs level =
      (whileDescend first cs node.children).map fun children =>
        level.set i (Category.mk node.value node.selected children) := by
  rw [whileDescend.eq_1, if_neg h]
  split
  · next h1 => rw [hi] at h1; cases h1
  · next j h1 =>
    rw [hi] at h1; cases h1
    split
    · next h2 => rw [hn] at h2; cases h2
    · next m h2 => rw [hn] at h2; cases h2; rfl

/-- Where the loop goes on, some sibling is selected and `find` returns the first. -/
theorem exists_step_of_not_stops (first : String) (level : List Category)
    (h : ¬ descentStops first level = true) :
    ∃ i node, level.findIdx? (fun node => node.selected) = some i ∧
      level[i]? = some node ∧ node.selected = true := by
  have hex : ∃ x, x ∈ level ∧ x.selected = true := by
    simp [descentStops] at h
    obtain ⟨_, x, hx, hs⟩ := h
    exact ⟨x, hx, hs⟩
  cases hi : level.findIdx? (fun node => node.selected) with
  | none =>
    rw [List.findIdx?_eq_none_iff] at hi
    obtain ⟨x, hx, hs⟩ := hex
    have := hi x hx
    simp [hs] at this
  | some i =>
    obtain ⟨node, hn, hs⟩ := getElem?_of_findIdx? hi
    exact ⟨i, node, rfl, hn, hs⟩

/-- Induction along the descent of the `while` loop. -/
theorem descent_induction (first : String) (motive : List Category → Prop)
    (stop : ∀ level, descentStops first level = true → motive level)
    (step : ∀ level i node, ¬ descentStops first level = true →
      level.findIdx? (fun node => node.selected) = some i → level[i]? = some node →
      motive node.children → motive level) :
    ∀ level, motive level := by
  intro level
  induction level using whileDescend.induct first [] with
  | case1 level h => exact stop level h
  | case2 level h hi =>
    obtain ⟨i, node, hi2, _, _⟩ := exists_step_of_not_stops first level h
    rw [hi] at hi2; cases hi2
  | case3 level h i hi hn =>
    obtain ⟨node, hn2, _⟩ := getElem?_of_findIdx? hi
    rw [hn] at hn2; cases hn2
  | case4 level h i hi node hn ih => exact step level i node h hi hn ih

/-- The descent followed by the `forEach` loop negates exactly the matched
positions, taken below the position where the descent stops. -/
theorem whileDescend_flipped (first : String) (cs : List FacetOperation) :
    ∀ (level : List Category) (ps : List (List Nat)),
      matchedFrom cs (stopLevel first level).2 = some ps →
      ∃ r, whileDescend first cs level = some r ∧
        FlippedAt (ps.map ((stopLevel first level).1 ++ ·)) level r := by
  intro level
  induction level using descent_induction first with
  | stop level h =>
    intro ps hps
    rw [stopLevel_of_stops first level h] at hps ⊢
    rw [whileDescend_of_stops first cs level h]
    simpa using forEachToggle_flipped cs level ps hps
  | step level i node h hi hn ih =>
    intro ps hps
    rw [stopLevel_of_step first level i node h hi hn] at hps ⊢
    obtain ⟨r, hr, hfl⟩ := ih ps hps
    refine ⟨level.set i (Category.mk node.value node.selected r), ?_, ?_⟩
    · rw [whileDescend_of_step first cs level i node h hi hn, hr]; rfl
    · have hne : [] ∉ ps.map ((stopLevel first node.children).1 ++ ·) := by
        intro hmem
        obtain ⟨q, hq, hnil⟩ := List.mem_map.1 hmem
        have : q = [] := (List.append_eq_nil.1 hnil).2
        subst this
        exact nil_not_mem_matchedFrom cs _ ps hps hq
      have := flippedAt_set level i node r _ false hn hfl hne
      simpa [List.map_map, Function.comp_def] using this

/-- Writing back the element already there changes nothing. -/
theorem set_eq_self_of_getElem? {α : Type} (l : List α) (i : Nat) (a : α)
    (h : l[i]? = some a) : l.set i a = l := by
  apply List.ext_getElem?
  intro j
  by_cases hij : i = j
  · subst hij
    have hlt : i < l.length := (List.getElem?_eq_some_iff.1 h).1
    rw [List.getElem?_set_self hlt, h]
  · rw [List.getElem?_set_ne hij]

/-- One position is matched for each operation. -/
theorem matchedFrom_length (cs : List FacetOperation) :
    ∀ (level : List Category) (ps : List (List Nat)), matchedFrom cs level = some ps →
      ps.length = cs.length := by
  induction cs with
  | nil =>
    intro level ps h
    simp only [matchedFrom, Option.some.injEq] at h
    subst h
    rfl
  | cons c rest ih =>
    intro level ps h
    obtain ⟨i, node, qs, _, _, hm, rfl⟩ := matchedFrom_cons_eq c rest level ps h
    simp [ih node.children qs hm]

/-- The matched positions are all different. -/
theorem matchedFrom_nodup (cs : List FacetOperation) :
    ∀ (level : List Category) (ps : List (List Nat)), matchedFrom cs level = some ps →
      ps.Nodup := by
  induction cs with
  | nil =>
    intro level ps h
    simp only [matchedFrom, Option.some.injEq] at h
    subst h
    exact List.nodup_nil
  | cons c rest ih =>
    intro level ps h
    obtain ⟨i, node, qs, _, _, hm, rfl⟩ := matchedFrom_cons_eq c rest level ps h
    refine List.nodup_cons.2 ⟨?_, ?_⟩
    · intro hmem
      obtain ⟨q, hq, hnil⟩ := List.mem_map.1 hmem
      have : q = [] := by simpa using hnil
      subst this
      exact nil_not_mem_matchedFrom rest _ qs hm hq
    · exact (ih node.children qs hm).map (fun a b hab => by simpa using hab)

/-- Every matched position names a node of the level. -/
theorem matchedFrom_nodeAt (cs : List FacetOperation) :
    ∀ (level : List Category) (ps : List (List Nat)), matchedFrom cs level = some ps →
      ∀ p ∈ ps, (nodeAt level p).isSome = true := by
  induction cs with
  | nil =>
    intro level ps h
    simp only [matchedFrom, Option.some.injEq] at h
    subst h
    intro p hp
    cases hp
  | cons c rest ih =>
    intro level ps h
    obtain ⟨i, node, qs, _, hn, hm, rfl⟩ := matchedFrom_cons_eq c rest level ps h
    intro p hp
    rcases List.mem_cons.1 hp with h1 | h1
    · subst h1
      simp [nodeAt, hn]
    · obtain ⟨q, hq, rfl⟩ := List.mem_map.1 h1
      have hne : q ≠ [] := fun h0 => nil_not_mem_matchedFrom rest _ qs hm (h0 ▸ hq)
      rw [nodeAt_cons, hn]
      simp only [hne, if_false]
      exact ih node.children qs hm q hq

/-- Looking up below the stop position is looking up in the stop level. -/
theorem nodeAt_stopLevel_append (first : String) (q : List Nat) (hq : q ≠ []) :
    ∀ level : List Category,
      nodeAt level ((stopLevel first level).1 ++ q) = nodeAt (stopLevel first level).2 q := by
  intro level
  induction level using descent_induction first with
  | stop level h => rw [stopLevel_of_stops first level h]; rfl
  | step level i node h hi hn ih =>
    rw [stopLevel_of_step first level i node h hi hn]
    simp only [List.cons_append]
    rw [nodeAt_cons, hn]
    simp only [List.append_eq_nil, hq, and_false, if_false]
    exact ih

/-- The `forEach` loop raises when some operation is not matched. -/
theorem forEachToggle_none (cs : List FacetOperation) :
    ∀ level : List Category, matchedFrom cs level = none → forEachToggle cs level = none := by
  induction cs with
  | nil => intro level h; simp [matchedFrom] at h
  | cons c rest ih =>
    intro level h
    unfold matchedFrom at h
    unfold forEachToggle
    cases hi : level.findIdx? (fun node => node.value == c.value) with
    | none => rfl
    | some i =>
      obtain ⟨node, hn, _⟩ := getElem?_of_findIdx? hi
      simp only [hi, hn] at h ⊢
      cases hm : matchedFrom rest node.children with
      | none => simp [ih node.children hm]
      | some qs => simp [hm] at h

/-- The recipe raises when some operation is not matched at the stop level. -/
theorem whileDescend_none (first : String) (cs : List FacetOperation) :
    ∀ level : List Category, matchedFrom cs (stopLevel first level).2 = none →
      whileDescend first cs level = none := by
  intro level
  induction level using descent_induction first with
  | stop level h =>
    intro hps
    rw [stopLevel_of_stops first level h] at hps
    rw [whileDescend_of_stops first cs level h]
    exact forEachToggle_none cs level hps
  | step level i node h hi hn ih =>
    intro hps
    rw [stopLevel_of_step first level i node h hi hn] at hps
    rw [whileDescend_of_step first cs level i node h hi hn, ih hps]
    rfl

/-- The index found for a value depends on the values of the level only. -/
theorem findIdx?_value_congr (v : String) (a b : List Category)
    (h : a.map Category.value = b.map Category.value) :
    a.findIdx? (fun node => node.value == v) = b.findIdx? (fun node => node.value == v) := by
  have ha := List.findIdx?_map (p := fun s : String => s == v) Category.value a
  have hb := List.findIdx?_map (p := fun s : String => s == v) Category.value b
  rw [h] at ha
  exact (ha.symm.trans hb)

/-- The first selected sibling depends on the flags of the level only. -/
theorem findIdx?_selected_congr (a b : List Category)
    (h : a.map Category.selected = b.map Category.selected) :
    a.findIdx? (fun node => node.selected) = b.findIdx? (fun node => node.selected) := by
  have ha := List.findIdx?_map (p := fun s : Bool => s) Category.selected a
  have hb := List.findIdx?_map (p := fun s : Bool => s) Category.selected b
  rw [h] at ha
  exact (ha.symm.trans hb)

/-- The loop test depends on the values and flags of the level only. -/
theorem descentStops_congr (first : String) (a b : List Category)
    (hv : a.map Category.value = b.map Category.value)
    (hs : a.map Category.selected = b.map Category.selected) :
    descentStops first a = descentStops first b := by
  have h1 : ∀ l : List Category,
      (l.find? (fun category => category.value == first)).isSome =
        ((l.map Category.value).find? (fun s => s == first)).isSome := by
    intro l
    rw [List.find?_map, Option.isSome_map']
    rfl
  have h2 : ∀ l : List Category,
      l.all (fun category => !category.selected) =
        (l.map Category.selected).all (fun s => !s) := by
    intro l
    induction l with
    | nil => rfl
    | cons x xs ih => simp only [List.all_cons, List.map_cons, ih]
  unfold descentStops
  rw [h1 a, h1 b, h2 a, h2 b, hv, hs]

/-- What a successful `forEach` loop on a non-empty batch did. -/
theorem forEachToggle_cons_eq (c : FacetOperation) (rest : List FacetOperation)
    (level r : List Category) (h : forEachToggle (c :: rest) level = some r) :
    ∃ i node children, level.findIdx? (fun node => node.value == c.value) = some i ∧
      level[i]? = some node ∧ forEachToggle rest node.children = some children ∧
      r = level.set i (Category.mk node.value (!node.selected) children) := by
  unfold forEachToggle at h
  cases hi : level.findIdx? (fun node => node.value == c.value) with
  | none => simp [hi] at h
  | some i =>
    obtain ⟨node, hn, _⟩ := getElem?_of_findIdx? hi
    simp only [hi, hn] at h
    cases hm : forEachToggle rest node.children with
    | none => simp [hm] at h
    | some children =>
      simp only [hm, Option.map_some', Option.some.injEq] at h
      exact ⟨i, node, children, rfl, hn, hm, h.symm⟩

/-- Writing back a node with the same value keeps the values of the level. -/
theorem map_value_set (level : List Category) (i : Nat) (node : Category) (s : Bool)
    (children : List Category) (hn : level[i]? = some node) :
    (level.set i (Category.mk node.value s children)).map Category.value =
      level.map Category.value := by
  rw [List.map_set]
  exact set_eq_self_of_getElem? _ _ _ (by simp [hn])

/-- Writing back a node with the same flag keeps the flags of the level. -/
theorem map_selected_set (level : List Category) (i : Nat) (node : Category)
    (children : List Category) (hn : level[i]? = some node) :
    (level.set i (Category.mk node.value node.selected children)).map Category.selected =
      level.map Category.selected := by
  rw [List.map_set]
  exact set_eq_self_of_getElem? _ _ _ (by simp [hn])

/-- The `forEach` loop keeps the values of the level it starts on. -/
theorem forEachToggle_value (cs : List FacetOperation) (level r : List Category)
    (h : forEachToggle cs level = some r) :
    r.map Category.value = level.map Category.value := by
  cases cs with
  | nil =>
    simp only [forEachToggle, Option.some.injEq] at h
    rw [h]
  | cons c rest =>
    obtain ⟨i, node, children, _, hn, _, rfl⟩ := forEachToggle_cons_eq c rest level r h
    exact map_value_set level i node _ children hn

/-- The `forEach` loop run on its own result gives back the level. -/
theorem forEachToggle_involutive (cs : List FacetOperation) :
    ∀ level r : List Category, forEachToggle cs level = some r →
      forEachToggle cs r = some level := by
  induction cs with
  | nil =>
    intro level r h
    simp only [forEachToggle, Option.some.injEq] at h ⊢
    exact h.symm
  | cons c rest ih =>
    intro level r h
    obtain ⟨i, node, children, hi, hn, hch, rfl⟩ := forEachToggle_cons_eq c rest level r h
    have hlt : i < level.length := (List.getElem?_eq_some_iff.1 hn).1
    have hi2 : (level.set i (Category.mk node.value (!node.selected) children)).findIdx?
        (fun node => node.value == c.value) = some i := by
      rw [findIdx?_value_congr c.value _ level (map_value_set level i node _ children hn)]
      exact hi
    have hn2 : (level.set i (Category.mk node.value (!node.selected) children))[i]? =
        some (Category.mk node.value (!node.selected) children) :=
      List.getElem?_set_self hlt
    unfold forEachToggle
    simp only [hi2, hn2, Category.children_mk, ih node.children children hch,
      Option.map_some', Category.value_mk, Category.selected_mk, Bool.not_not,
      List.set_set, Category.mk_eta]
    rw [set_eq_self_of_getElem? level i node hn]

/-- An iteration of the descent keeps the values and flags of its level. -/
theorem whileDescend_value_selected (first : String) (cs : List FacetOperation) :
    ∀ level r : List Category, ¬ descentStops first level = true →
      whileDescend first cs level = some r →
      r.map Category.value = level.map Category.value ∧
        r.map Category.selected = level.map Category.selected := by
  intro level r h hr
  obtain ⟨i, node, hi, hn, _⟩ := exists_step_of_not_stops first level h
  rw [whileDescend_of_step first cs level i node h hi hn] at hr
  cases hc : whileDescend first cs node.children with
  | none => simp [hc] at hr
  | some children =>
    simp only [hc, Option.map_some', Option.some.injEq] at hr
    subst hr
    exact ⟨map_value_set level i node _ children hn, map_selected_set level i node children hn⟩

/-- The recipe run on its own result gives back the tree. -/
theorem whileDescend_involutive (c : FacetOperation) (rest : List FacetOperation) :
    ∀ level r : List Category, whileDescend c.value (c :: rest) level = some r →
      whileDescend c.value (c :: rest) r = some level := by
  intro level
  induction level using descent_induction c.value with
  | stop level h =>
    intro r hr
    rw [whileDescend_of_stops c.value (c :: rest) level h] at hr
    have hv := forEachToggle_value (c :: rest) level r hr
    obtain ⟨i, node, _, hi, _, _, _⟩ := forEachToggle_cons_eq c rest level r hr
    have hstop : descentStops c.value r = true := by
      have hi2 := (findIdx?_value_congr c.value r level hv).trans hi
      obtain ⟨m, hm, hmv⟩ := getElem?_of_findIdx? hi2
      rw [descentStops_iff]
      left
      refine ⟨m, ?_, by simpa using hmv⟩
      obtain ⟨hlt, rfl⟩ := List.getElem?_eq_some_iff.1 hm
      exact List.getElem_mem _
    rw [whileDescend_of_stops c.value (c :: rest) r hstop]
    exact forEachToggle_involutive (c :: rest) level r hr
  | step level i node h hi hn ih =>
    intro r hr
    obtain ⟨hv, hs⟩ := whileDescend_value_selected c.value (c :: rest) level r h hr
    rw [whileDescend_of_step c.value (c :: rest) level i node h hi hn] at hr
    cases hc : whileDescend c.value (c :: rest) node.children with
    | none => simp [hc] at hr
    | some children =>
      simp only [hc, Option.map_some', Option.some.injEq] at hr
      subst hr
      have hlt : i < level.length := (List.getElem?_eq_some_iff.1 hn).1
      have hstop : ¬ descentStops c.value
          (level.set i (Category.mk node.value node.selected children)) = true := by
        rw [descentStops_congr c.value _ level hv hs]
        exact h
      have hi2 := (findIdx?_selected_congr _ level hs).trans hi
      have hn2 : (level.set i (Category.mk node.value node.selected children))[i]? =
          some (Category.mk node.value node.selected children) :=
        List.getElem?_set_self hlt
      rw [whileDescend_of_step c.value (c :: rest) _ i _ hstop hi2 hn2]
      simp only [Category.children_mk, ih children hc, Option.map_some', Category.value_mk,
        Category.selected_mk, List.set_set, Category.mk_eta]
      rw [set_eq_self_of_getElem? level i node hn]

/-- Two trees of the same root length that show the same at every position are
equal. -/
theorem eq_of_view_eq : ∀ (n : Nat) (a b : List Category), sizeOf a ≤ n →
    a.length = b.length →
    (∀ q : List Nat, (nodeAt a q).map Category.view = (nodeAt b q).map Category.view) →
    a = b := by
  intro n
  induction n with
  | zero =>
    intro a b hs
    cases a <;> simp at hs
  | succ n ih =>
    intro a b hs hlen h
    apply List.ext_getElem hlen
    intro i h1 h2
    have ha : a[i]? = some a[i] := by simp [h1]
    have hb : b[i]? = some b[i] := by simp [h2]
    have hv := h [i]
    simp only [nodeAt, ha, hb, Option.map_some', Option.some.injEq, Category.view,
      Prod.mk.injEq] at hv
    have hmem : a[i] ∈ a := List.getElem_mem _
    have hlt := List.sizeOf_lt_of_mem hmem
    cases hx : a[i] with
    | mk v s ch =>
      cases hy : b[i] with
      | mk v2 s2 ch2 =>
        rw [hx, hy] at hv
        simp only [Category.value_mk, Category.selected_mk, Category.children_mk] at hv
        obtain ⟨hv1, hv2, hv3⟩ := hv
        have hch : ch = ch2 := by
          apply ih ch ch2 _ hv3
          · intro q
            cases q with
            | nil => simp [nodeAt]
            | cons j p =>
              have := h (i :: j :: p)
              simpa [nodeAt, ha, hb, hx, hy] using this
          · rw [hx] at hlt
            simp at hlt
            omega
        rw [hv1, hv2, hch]

/-- The relation `FlippedAt ps t` holds of one tree only. -/
theorem flippedAt_unique (ps : List (List Nat)) (t a b : List Category)
    (ha : FlippedAt ps t a) (hb : FlippedAt ps t b) : a = b :=
  eq_of_view_eq (sizeOf a) a b (Nat.le_refl _) (ha.1.trans hb.1.symm)
    (fun q => (ha.2 q).trans (hb.2 q).symm)

/-- The descent on the result of the recipe stops where it stopped before. -/
theorem stopLevel_path_eq (c : FacetOperation) (rest : List FacetOperation) :
    ∀ level r : List Category, whileDescend c.value (c :: rest) level = some r →
      (stopLevel c.value r).1 = (stopLevel c.value level).1 := by
  intro level
  induction level using descent_induction c.value with
  | stop level h =>
    intro r hr
    rw [whileDescend_of_stops c.value (c :: rest) level h] at hr
    have hv := forEachToggle_value (c :: rest) level r hr
    obtain ⟨i, node, _, hi, _, _, _⟩ := forEachToggle_cons_eq c rest level r hr
    have hstop : descentStops c.value r = true := by
      have hi2 := (findIdx?_value_congr c.value r level hv).trans hi
      obtain ⟨m, hm, hmv⟩ := getElem?_of_findIdx? hi2
      rw [descentStops_iff]
      left
      refine ⟨m, ?_, by simpa using hmv⟩
      obtain ⟨hlt, rfl⟩ := List.getElem?_eq_some_iff.1 hm
      exact List.getElem_mem _
    rw [stopLevel_of_stops c.value r hstop, stopLevel_of_stops c.value level h]
  | step level i node h hi hn ih =>
    intro r hr
    obtain ⟨hv, hs⟩ := whileDescend_value_selected c.value (c :: rest) level r h hr
    rw [whileDescend_of_step c.value (c :: rest) level i node h hi hn] at hr
    cases hc : whileDescend c.value (c :: rest) node.children with
    | none => simp [hc] at hr
    | some children =>
      simp only [hc, Option.map_some', Option.some.injEq] at hr
      subst hr
      have hlt : i < level.length := (List.getElem?_eq_some_iff.1 hn).1
      have hstop : ¬ descentStops c.value
          (level.set i (Category.mk node.value node.selected children)) = true := by
        rw [descentStops_congr c.value _ level hv hs]
        exact h
      have hi2 := (findIdx?_selected_congr _ level hs).trans hi
      have hn2 : (level.set i (Category.mk node.value node.selected children))[i]? =
          some (Category.mk node.value node.selected children) :=
        List.getElem?_set_self hlt
      rw [stopLevel_of_step c.value _ i _ hstop hi2 hn2,
        stopLevel_of_step c.value level i node h hi hn]
      simp only [Category.children_mk, ih children hc]


/-- An evaluation with the query, map and orderBy of the one before changes no
ref and returns the same page. -/
theorem useCorrectPage_same_keys (refs : PageRefs) (a b : PageArgs)
    (hq : b.query = a.query) (hm : b.map = a.map) (ho : b.orderBy = a.orderBy) :
    (useCorrectPage (useCorrectPage refs a).1 b).1 = (useCorrectPage refs a).1 ∧
      (useCorrectPage (useCorrectPage refs a).1 b).2 = (useCorrectPage refs a).2 := by
  simp only [useCorrectPage, hq, hm, ho]
  split <;> simp_all

/-- Evaluations that repeat the query, map and orderBy of an evaluation all
return its page. -/
theorem useCorrectPageRun_same_keys (a : PageArgs) :
    ∀ (rest : List PageArgs) (refs : PageRefs),
      (∀ b ∈ rest, b.query = a.query ∧ b.map = a.map ∧ b.orderBy = a.orderBy) →
      ∀ p ∈ useCorrectPageRun (useCorrectPage refs a).1 rest, p = (useCorrectPage refs a).2 := by
  intro rest
  induction rest with
  | nil => intro refs _ p hp; cases hp
  | cons b rest ih =>
    intro refs hall p hp
    obtain ⟨hq, hm, ho⟩ := hall b (List.mem_cons_self _ _)
    obtain ⟨h1, h2⟩ := useCorrectPage_same_keys refs a b hq hm ho
    simp only [useCorrectPageRun, List.mem_cons] at hp
    rcases hp with hp | hp
    · rw [hp, h2]
    · rw [h1] at hp
      exact ih refs (fun x hx => hall x (List.mem_cons_of_mem _ hx)) p hp

/-- The render that mounts `SearchQuery` uses the requested page as it is. -/
theorem searchQueryMount_page (pageQuery : Option String) (query map orderBy : String)
    (n : Int) :
    (searchQueryMount pageQuery query map orderBy n).2 =
      (requestedPage pageQuery, offsets (requestedPage pageQuery) n) := by
  simp [searchQueryMount, searchQueryRender, useCorrectPage, mountRefs]


/-- Below `2^53` neighbouring doubles are 1 apart. -/
theorem ulpOf_of_lt (fuel a : Nat) (h : a < 2 ^ 53) : ulpOf fuel a = 1 := by
  cases fuel with
  | zero => rfl
  | succ f =>
    unfold ulpOf
    rw [if_pos h]

/-- An integer of magnitude at most `2^53` is a double: rounding keeps it. -/
theorem roundDouble_exact (x : Int) (h : x.natAbs ≤ exactBound) : roundDouble x = .num x := by
  have hb : (2 : Nat) ^ 53 < (2 ^ 128) ^ 8 := by norm_num
  rcases Nat.lt_or_ge x.natAbs (2 ^ 53) with hlt | hge
  · have hu := ulpOf_of_lt 1024 x.natAbs hlt
    have hm : ¬ (2 ^ 128) ^ 8 ≤ x.natAbs := by omega
    simp only [roundDouble, hu, Nat.div_one, Nat.mod_one, Nat.mul_one]
    simp only [Nat.mul_zero, Nat.not_lt_zero, false_or, Nat.zero_ne_one, false_and, if_false,
      hm]
    congr 1
    split <;> omega
  · have ha : x.natAbs = 2 ^ 53 := by
      unfold exactBound at h
      omega
    rcases Int.natAbs_eq x with hx | hx
    · rw [hx, ha]; decide
    · rw [hx, ha]; decide

/-- The sum of two integer doubles is the double nearest to the exact sum. -/
@[simp] theorem JSNumber.add_num (a b : Int) :
    (JSNumber.num a).add (.num b) = roundDouble (a + b) := rfl

/-- The difference of two integer doubles is the double nearest to the exact
difference. -/
@[simp] theorem JSNumber.sub_num (a b : Int) :
    (JSNumber.num a).sub (.num b) = roundDouble (a - b) := by
  simp [JSNumber.sub, JSNumber.neg, Int.sub_eq_add_neg]

/-- The product of two integer doubles is the double nearest to the exact
product. -/
@[simp] theorem JSNumber.mul_num (a b : Int) :
    (JSNumber.num a).mul (.num b) = roundDouble (a * b) := rfl

/-- With every number the computation meets of magnitude at most `2^53`, the
offsets are the exact integers. -/
theorem offsets_exact (p n : Int)
    (h : ∀ x ∈ [n, p - 1, (p - 1) * n, p * n, p * n - 1], x.natAbs ≤ exactBound) :
    offsets (.num p) n = (.num ((p - 1) * n), .num ((p - 1) * n + n - 1)) := by
  have h1 := h n (by simp)
  have h2 := h (p - 1) (by simp)
  have h3 := h ((p - 1) * n) (by simp)
  have h4 := h (p * n) (by simp)
  have h5 := h (p * n - 1) (by simp)
  have e1 : (p - 1) * n + n = p * n := by ring
  simp only [offsets, roundDouble_exact n h1, JSNumber.sub_num, roundDouble_exact (p - 1) h2,
    JSNumber.mul_num, roundDouble_exact _ h3, JSNumber.add_num, e1, roundDouble_exact _ h4,
    roundDouble_exact _ h5]

/-- The offsets of page 1 for a page size `n` with `-2^53 < n ≤ 2^53`. -/
theorem offsets_first_page (n : Int) (h1 : -(exactBound : Int) < n) (h2 : n ≤ exactBound) :
    offsets (.num 1) n = (.num 0, .num (n - 1)) := by
  have h := offsets_exact 1 n (by
    intro x hx
    simp only [List.mem_cons, List.mem_singleton, List.not_mem_nil, or_false] at hx
    rcases hx with rfl | rfl | rfl | rfl | rfl <;> omega)
  simpa using h

/-- The rounding of `parseInt` at `2^53 + 1`: the tie goes to the even
significand. -/
theorem parseInt_rounds : parseInt "9007199254740993" = .num 9007199254740992 := by
  decide

/-- The bound `exactBound` as an integer. -/
theorem exactBound_cast : (exactBound : Int) = 2 ^ 53 := by
  norm_num [exactBound]

/-! ## The claims -/

/-- C1. When the batch resolves in the tree `t` at the positions `ps`,
`updateTree batch t` returns a tree that is `t` with `selected` negated at
exactly the positions `ps` and nothing else changed (`FlippedAt`), and `ps`
names one node of `t` for each operation of the batch, all different. The
empty batch returns `t`; the tree `[A[A1, A2]]` with the batch `[A, A1]`
becomes `[A*[A1*, A2]]` with `A2` as it was. -/
theorem updateTree_flips_exactly_matched (t : List Category) (batch : List FacetOperation) :
    (∀ ps, resolve batch t = some ps →
      ∃ r, updateTree batch t = some r ∧ FlippedAt ps t r ∧
        (∀ r2, FlippedAt ps t r2 → r2 = r) ∧ ps.length = batch.length ∧
        ps.Nodup ∧ ∀ p ∈ ps, (nodeAt t p).isSome = true) ∧
    updateTree [] t = some t ∧
    ∀ (m1 m2 : String) (s : Bool) (below : List Category),
      updateTree [⟨"A", m1⟩, ⟨"A1", m2⟩]
          [.mk "A" false [.mk "A1" false [], .mk "A2" s below]] =
        some [.mk "A" true [.mk "A1" true [], .mk "A2" s below]] := by
  refine ⟨?_, rfl, ?_⟩
  · intro ps h
    cases batch with
    | nil =>
      simp only [resolve, Option.some.injEq] at h
      subst h
      exact ⟨t, rfl, flippedAt_nil t, fun r2 h2 => flippedAt_unique [] t r2 t h2 (flippedAt_nil t),
        rfl, List.nodup_nil, fun p hp => by cases hp⟩
    | cons c rest =>
      simp only [resolve] at h
      cases hm : matchedFrom (c :: rest) (stopLevel c.value t).2 with
      | none => simp [hm] at h
      | some qs =>
        simp only [hm, Option.map_some', Option.some.injEq] at h
        subst h
        obtain ⟨r, hr, hfl⟩ := whileDescend_flipped c.value (c :: rest) t qs hm
        refine ⟨r, hr, hfl, fun r2 h2 => flippedAt_unique _ t r2 r h2 hfl, ?_, ?_, ?_⟩
        · simp [matchedFrom_length (c :: rest) _ qs hm]
        · exact (matchedFrom_nodup (c :: rest) _ qs hm).map
            (fun a b hab => List.append_cancel_left hab)
        · intro p hp
          obtain ⟨q, hq, rfl⟩ := List.mem_map.1 hp
          have hne : q ≠ [] := fun h0 => nil_not_mem_matchedFrom _ _ qs hm (h0 ▸ hq)
          rw [nodeAt_stopLevel_append c.value q hne t]
          exact matchedFrom_nodeAt (c :: rest) _ qs hm q hq
  · intro m1 m2 s below
    simp only [updateTree]
    rw [whileDescend.eq_1]
    simp [descentStops, forEachToggle]

/-- C1, at the tree `[A[A1, A2]]` and the batch `[A, A1]`: the batch resolves
at the positions `[0]` and `[0, 0]`, and the result is the tree with those two
flags negated. -/
theorem updateTree_flips_exactly_matched_witness :
    resolve [⟨"A", "c"⟩, ⟨"A1", "c"⟩]
        [.mk "A" false [.mk "A1" false [], .mk "A2" false []]] = some [[0], [0, 0]] ∧
      ∃ r, updateTree [⟨"A", "c"⟩, ⟨"A1", "c"⟩]
            [.mk "A" false [.mk "A1" false [], .mk "A2" false []]] = some r ∧
        FlippedAt [[0], [0, 0]] [.mk "A" false [.mk "A1" false [], .mk "A2" false []]] r ∧
        (∀ r2, FlippedAt [[0], [0, 0]]
          [.mk "A" false [.mk "A1" false [], .mk "A2" false []]] r2 → r2 = r) ∧
        [[0], [0, 0]].length = [(⟨"A", "c"⟩ : FacetOperation), ⟨"A1", "c"⟩].length ∧
        [[0], [0, 0]].Nodup ∧
        ∀ p ∈ [[0], [0, 0]],
          (nodeAt [.mk "A" false [.mk "A1" false [], .mk "A2" false []]] p).isSome = true :=
  have h : resolve [⟨"A", "c"⟩, ⟨"A1", "c"⟩]
      [.mk "A" false [.mk "A1" false [], .mk "A2" false []]] = some [[0], [0, 0]] := by
    simp only [resolve]
    rw [stopLevel.eq_1]
    simp [matchedFrom]
  ⟨h, (updateTree_flips_exactly_matched _ _).1 _ h⟩

/-- C2. `handleFilterCheck` evaluated twice. On the pending list
`[red/color]` toggling `red/color` gives `[]` and then `[red/color]` again;
toggling `red/brand` instead removes `red/color` (the test of
`isFilterSelected` and the removal compare `value` only) and then appends
`red/brand`, so the pending operations are not the original ones. -/
theorem handleFilterCheck_twice_on_same_value :
    (handleFilterCheck ⟨true, [⟨"red", "color"⟩], []⟩ ⟨"red", "color"⟩).filterOperations = [] ∧
    (handleFilterCheck (handleFilterCheck ⟨true, [⟨"red", "color"⟩], []⟩ ⟨"red", "color"⟩)
        ⟨"red", "color"⟩).filterOperations = [⟨"red", "color"⟩] ∧
    (handleFilterCheck ⟨true, [⟨"red", "color"⟩], []⟩ ⟨"red", "brand"⟩).filterOperations = [] ∧
    (handleFilterCheck (handleFilterCheck ⟨true, [⟨"red", "color"⟩], []⟩ ⟨"red", "brand"⟩)
        ⟨"red", "brand"⟩).filterOperations = [⟨"red", "brand"⟩] ∧
    ¬ (∀ op : FacetOperation,
        op ∈ (handleFilterCheck (handleFilterCheck ⟨true, [⟨"red", "color"⟩], []⟩
            ⟨"red", "brand"⟩) ⟨"red", "brand"⟩).filterOperations ↔
          op ∈ [(⟨"red", "color"⟩ : FacetOperation)]) := by
  refine ⟨by decide, by decide, by decide, by decide, ?_⟩
  intro h
  exact absurd ((h ⟨"red", "color"⟩).2 (by decide)) (by decide)


/-- C3. `useCorrectPage` on any refs (any point in the life of a mounted
component). An evaluation whose query, map or orderBy differs from the
remembered one stores page 1 as the anchored page and returns it, leaving the
remembered query, map and orderBy as they were. An evaluation whose query, map
and orderBy are the remembered ones changes no ref and returns the anchored
page `pageRef`, whatever its `page` argument is. In a run of evaluations that
all carry the query, map and orderBy of the first, every evaluation returns the
page the first one returned, which is the page anchored after it. A mounted
component returns the page of its first evaluation; mounted at page 3 for
"shoes", it returns 1 for "boots" and still 1 when the query is "shoes"
again. -/
theorem useCorrectPage_anchor (refs : PageRefs) (a : PageArgs) :
    ((a.query ≠ refs.queryRef ∨ a.map ≠ refs.mapRef ∨ a.orderBy ≠ refs.orderByRef) →
      useCorrectPage refs a = ({ refs with pageRef := .num 1 }, .num 1)) ∧
    ((a.query = refs.queryRef ∧ a.map = refs.mapRef ∧ a.orderBy = refs.orderByRef) →
      useCorrectPage refs a = (refs, refs.pageRef)) ∧
    (useCorrectPage refs a).1.pageRef = (useCorrectPage refs a).2 ∧
    (∀ rest : List PageArgs,
      (∀ b ∈ rest, b.query = a.query ∧ b.map = a.map ∧ b.orderBy = a.orderBy) →
      ∀ p ∈ useCorrectPageRun refs (a :: rest), p = (useCorrectPage refs a).2) ∧
    (∀ rest : List PageArgs, (useCorrectPageMounted (a :: rest)).head? = some a.page) ∧
    (∀ (map orderBy : String) (page1 page2 : JSNumber),
      useCorrectPageMounted
          [⟨.num 3, "shoes", map, orderBy⟩, ⟨page1, "boots", map, orderBy⟩,
            ⟨page2, "shoes", map, orderBy⟩] =
        [.num 3, .num 1, .num 1]) := by
  refine ⟨?_, ?_, rfl, ?_, ?_, ?_⟩
  · intro h
    have hc : (refs.queryRef != a.query || refs.mapRef != a.map ||
        refs.orderByRef != a.orderBy) = true := by
      rcases h with h | h | h
      · simp [Ne.symm h]
      · simp [Ne.symm h]
      · simp [Ne.symm h]
    simp only [useCorrectPage, hc, if_true, DEFAULT_PAGE]
  · rintro ⟨hq, hm, ho⟩
    simp [useCorrectPage, hq, hm, ho]
  · intro rest hall p hp
    simp only [useCorrectPageRun, List.mem_cons] at hp
    rcases hp with hp | hp
    · exact hp
    · exact useCorrectPageRun_same_keys a rest refs hall p hp
  · intro rest
    simp [useCorrectPageMounted, useCorrectPageRun, useCorrectPage, mountRefs]
  · intro map orderBy page1 page2
    simp [useCorrectPageMounted, useCorrectPageRun, useCorrectPage, mountRefs, DEFAULT_PAGE]

/-- C3 on a component mounted at page 3 for the query "shoes". Evaluated again
with "shoes" and the requested page 7, it changes no ref and returns 3, and so
do two further evaluations with "shoes" that ask for pages 8 and 9. Evaluated
with "boots", it stores and returns page 1. -/
theorem useCorrectPage_anchor_witness :
    (("shoes" : String) = "shoes" ∧ ("c" : String) = "c" ∧ ("" : String) = "") ∧
    useCorrectPage (mountRefs ⟨.num 3, "shoes", "c", ""⟩) ⟨.num 7, "shoes", "c", ""⟩ =
      (⟨.num 3, "shoes", "c", ""⟩, .num 3) ∧
    (∀ b ∈ [(⟨.num 8, "shoes", "c", ""⟩ : PageArgs), ⟨.num 9, "shoes", "c", ""⟩],
      b.query = "shoes" ∧ b.map = "c" ∧ b.orderBy = "") ∧
    (∀ p ∈ useCorrectPageRun (mountRefs ⟨.num 3, "shoes", "c", ""⟩)
        [⟨.num 7, "shoes", "c", ""⟩, ⟨.num 8, "shoes", "c", ""⟩, ⟨.num 9, "shoes", "c", ""⟩],
      p = .num 3) ∧
    ("boots" ≠ "shoes" ∨ "c" ≠ "c" ∨ "" ≠ "") ∧
    useCorrectPage (mountRefs ⟨.num 3, "shoes", "c", ""⟩) ⟨.num 5, "boots", "c", ""⟩ =
      (⟨.num 1, "shoes", "c", ""⟩, .num 1) :=
  ⟨⟨rfl, rfl, rfl⟩,
    (useCorrectPage_anchor (mountRefs ⟨.num 3, "shoes", "c", ""⟩)
      ⟨.num 7, "shoes", "c", ""⟩).2.1 ⟨rfl, rfl, rfl⟩,
    by decide,
    (useCorrectPage_anchor (mountRefs ⟨.num 3, "shoes", "c", ""⟩)
      ⟨.num 7, "shoes", "c", ""⟩).2.2.2.1 _ (by decide),
    Or.inl (by decide),
    (useCorrectPage_anchor (mountRefs ⟨.num 3, "shoes", "c", ""⟩)
      ⟨.num 5, "boots", "c", ""⟩).1 (Or.inl (by decide))⟩

/-- C4. After `handleUpdateCategories` the pending filter operations are the
former ones whose map is not `c`, then the former ones whose map is `c`, then
the normalised argument; the batch kept for the category tree is the
normalised argument alone. A single operation is normalised to the
one-element sequence. After `[Shoes]` and then `[Running]` the batch is
`[Running]` and the pending list holds both. -/
theorem handleUpdateCategories_pending (s : SidebarState) (m : MaybeCategories) :
    (handleUpdateCategories s m).filterOperations =
        s.filterOperations.filter (fun op => decide (op.map ≠ "c")) ++
          s.filterOperations.filter (fun op => decide (op.map = "c")) ++
          normalizeCategories m ∧
    (handleUpdateCategories s m).categoryTreeOperations = normalizeCategories m ∧
    (∀ c : FacetOperation, normalizeCategories (.single c) = [c]) ∧
    (∀ cs : List FacetOperation, normalizeCategories (.array cs) = cs) ∧
    ∀ m1 m2 : String,
      (handleUpdateCategories (handleUpdateCategories s (.array [⟨"Shoes", m1⟩]))
          (.array [⟨"Running", m2⟩])).categoryTreeOperations = [⟨"Running", m2⟩] ∧
      (⟨"Shoes", m1⟩ : FacetOperation) ∈
        (handleUpdateCategories (handleUpdateCategories s (.array [⟨"Shoes", m1⟩]))
          (.array [⟨"Running", m2⟩])).filterOperations ∧
      (⟨"Running", m2⟩ : FacetOperation) ∈
        (handleUpdateCategories (handleUpdateCategories s (.array [⟨"Shoes", m1⟩]))
          (.array [⟨"Running", m2⟩])).filterOperations := by
  refine ⟨?_, rfl, fun _ => rfl, fun _ => rfl, ?_⟩
  · have h1 : (fun op : FacetOperation => op.map != "c") =
        fun op => decide (op.map ≠ "c") := by
      funext op
      by_cases h : op.map = "c" <;> simp [h]
    have h2 : (fun op : FacetOperation => op.map == "c") =
        fun op => decide (op.map = "c") := by
      funext op
      by_cases h : op.map = "c" <;> simp [h]
    simp only [handleUpdateCategories, h1, h2, List.append_assoc]
  · intro m1 m2
    refine ⟨rfl, ?_, ?_⟩
    · simp only [handleUpdateCategories, normalizeCategories]
      by_cases h : m1 = "c" <;> simp [h, List.filter_append, List.filter_cons]
    · simp [handleUpdateCategories, normalizeCategories]

/-- C5, as stated, fails: with the batch `[Shoes]` pending for the category
tree, `handleApply` and `handleClearFilters` both leave
`categoryTreeOperations` equal to `[Shoes]`. -/
theorem handleApply_keeps_categoryTreeOperations :
    (handleApply ⟨true, [⟨"Shoes", "c"⟩], [⟨"Shoes", "c"⟩]⟩ false).1.categoryTreeOperations ≠ [] ∧
    (handleClearFilters ⟨true, [⟨"Shoes", "c"⟩], [⟨"Shoes", "c"⟩]⟩).1.categoryTreeOperations
      ≠ [] := by
  constructor <;> decide

/-- C5, amended. After `handleApply` and after `handleClearFilters` the
pending filter operations are empty and the sidebar is closed, while the batch
kept for the category tree is what it was; `handleApply` makes one call of
`navigateToFacet`, with the pending operations as they were and
`preventRouteChange`, and `handleClearFilters` makes none. -/
theorem handleApply_handleClearFilters_effect (s : SidebarState) (preventRouteChange : Bool) :
    (handleApply s preventRouteChange).1 =
        ⟨false, [], s.categoryTreeOperations⟩ ∧
    (handleApply s preventRouteChange).2 = [⟨s.filterOperations, preventRouteChange⟩] ∧
    (handleClearFilters s).1 = ⟨false, [], s.categoryTreeOperations⟩ ∧
    (handleClearFilters s).2 = [] :=
  ⟨rfl, rfl, rfl, rfl⟩

/-- C6, as stated, fails: with the batch `[A]` pending, a new authoritative
tree `[A]` (nothing selected) leaves the local tree `[A*]`, not the
authoritative tree. -/
theorem useCategoryTree_reapplies_batch :
    useCategoryTree [] [.mk "A" false []] [⟨"A", "c"⟩] true false =
        some [.mk "A" true []] ∧
    useCategoryTree [] [.mk "A" false []] [⟨"A", "c"⟩] true false ≠
        some [.mk "A" false []] := by
  have h : useCategoryTree [] [.mk "A" false []] [⟨"A", "c"⟩] true false =
      some [.mk "A" true []] := by
    simp only [useCategoryTree, updateTree]
    rw [whileDescend.eq_1]
    simp [descentStops, forEachToggle]
  refine ⟨h, ?_⟩
  rw [h]
  simp

/-- C6, amended. When the authoritative tree changes to `T`, the local tree
after the effects is `updateTree batch T`, whatever the local tree was: the
local mutations are discarded and the pending batch is applied to `T` (which
gives `T` itself for the empty batch). When only the batch changes, it is
applied to the local tree; when neither changes, the local tree stays. The
first render applies the batch to the tree it is given. -/
theorem useCategoryTree_effects (tree T : List Category) (batch : List FacetOperation)
    (operationsChanged : Bool) :
    useCategoryTree tree T batch true operationsChanged = updateTree batch T ∧
    useCategoryTree tree T [] true operationsChanged = some T ∧
    useCategoryTree tree T batch false true = updateTree batch tree ∧
    useCategoryTree tree T batch false false = some tree ∧
    useCategoryTreeMount T batch = updateTree batch T := by
  refine ⟨?_, ?_, rfl, rfl, rfl⟩
  · simp [useCategoryTree]
  · simp [useCategoryTree, updateTree]

/-- C7, as stated, fails: on the tree `[A]` the batch `[B]` is not found at
the level where it is looked up, and `updateTree` raises instead of returning
the tree. -/
theorem updateTree_raises_on_missing_value :
    resolve [⟨"B", "c"⟩] [.mk "A" false []] = none ∧
    updateTree [⟨"B", "c"⟩] [.mk "A" false []] = none ∧
    updateTree [⟨"B", "c"⟩] [.mk "A" false []] ≠ some [.mk "A" false []] := by
  have h : updateTree [⟨"B", "c"⟩] [.mk "A" false []] = none := by
    simp only [updateTree]
    rw [whileDescend.eq_1]
    simp [descentStops, forEachToggle]
  refine ⟨?_, h, ?_⟩
  · simp only [resolve]
    rw [stopLevel.eq_1]
    simp [matchedFrom]
  · rw [h]
    simp

/-- C7, amended. When some operation of the batch has no node with its value
at the level where it is looked up (the batch does not resolve in the tree),
`updateTree` raises: the producer returns no tree at all. -/
theorem updateTree_unresolved_raises (t : List Category) (batch : List FacetOperation)
    (h : resolve batch t = none) : updateTree batch t = none := by
  cases batch with
  | nil => simp [resolve] at h
  | cons c rest =>
    simp only [resolve, Option.map_eq_none'] at h
    exact whileDescend_none c.value (c :: rest) t h

/-- C7, amended, on the tree `[A[A1]]` with `A` selected and the batch
`[A1, B]`: the descent stops below `A`, `A1` is found and `B` is not among the
children of `A1`. -/
theorem updateTree_unresolved_raises_witness :
    resolve [⟨"A1", "c"⟩, ⟨"B", "c"⟩] [.mk "A" true [.mk "A1" false []]] = none ∧
    updateTree [⟨"A1", "c"⟩, ⟨"B", "c"⟩] [.mk "A" true [.mk "A1" false []]] = none :=
  have h : resolve [⟨"A1", "c"⟩, ⟨"B", "c"⟩] [.mk "A" true [.mk "A1" false []]] = none := by
    have h1 := stopLevel_of_step "A1" [.mk "A" true [.mk "A1" false []]] 0
      (.mk "A" true [.mk "A1" false []]) (by simp [descentStops]) (by simp) (by simp)
    have h2 := stopLevel_of_stops "A1" [.mk "A1" false []] (by simp [descentStops])
    simp only [Category.children_mk, h2] at h1
    simp [resolve, h1, matchedFrom]
  ⟨h, updateTree_unresolved_raises _ _ h⟩

/-- C8, as stated, fails: for the page query "abc" the requested page is
`NaN`, not 1, and on the render that mounts the component `from` and `to`
are `NaN`. -/
theorem requestedPage_abc_is_nan :
    requestedPage (some "abc") = .nan ∧ requestedPage (some "abc") ≠ DEFAULT_PAGE ∧
    (searchQueryMount (some "abc") "shoes" "ft" "" 10).2 = (.nan, .nan, .nan) := by
  refine ⟨by decide, by decide, ?_⟩
  rw [searchQueryMount_page]
  decide

/-- C8, amended. For an absent or empty page query the requested page is 1,
and on the render that mounts the component `from` is 0 and `to` is
`maxItemsPerPage - 1` (for a page size `n` with `-2^53 < n ≤ 2^53`, where `n`
and `n - 1` are doubles). For any other page query the requested page is
`parseInt(pageQuery)` with no fallback; for "abc" it is `NaN`, and `from`
and `to` computed from `NaN` are `NaN`. -/
theorem requestedPage_fallback (query map orderBy : String) (n : Int) :
    requestedPage none = .num 1 ∧ requestedPage (some "") = .num 1 ∧
    (-(2 ^ 53 : Int) < n → n ≤ 2 ^ 53 →
      (searchQueryMount none query map orderBy n).2 = (.num 1, .num 0, .num (n - 1))) ∧
    (-(2 ^ 53 : Int) < n → n ≤ 2 ^ 53 →
      (searchQueryMount (some "") query map orderBy n).2 = (.num 1, .num 0, .num (n - 1))) ∧
    (∀ s : String, s ≠ "" → requestedPage (some s) = parseInt s) ∧
    parseInt "abc" = .nan ∧ offsets .nan n = (.nan, .nan) := by
  refine ⟨rfl, by decide, ?_, ?_, ?_, by decide, ?_⟩
  · intro h1 h2
    rw [searchQueryMount_page]
    have h := offsets_first_page n (by rw [exactBound_cast]; exact h1)
      (by rw [exactBound_cast]; exact h2)
    simp only [requestedPage, DEFAULT_PAGE, h]
  · intro h1 h2
    rw [searchQueryMount_page]
    have h := offsets_first_page n (by rw [exactBound_cast]; exact h1)
      (by rw [exactBound_cast]; exact h2)
    have hp : requestedPage (some "") = .num 1 := by decide
    simp only [hp, h]
  · intro s hs
    simp [requestedPage, hs]
  · cases h : roundDouble n <;> simp [offsets, JSNumber.sub, JSNumber.add, JSNumber.mul,
      JSNumber.neg, h]

/-- C8, amended, at the page query "2" and the page size 10: the query is not
empty and the requested page is `parseInt("2")`; the size is in range and an
absent page query mounts at page 1 with `from = 0` and `to = 9`. -/
theorem requestedPage_fallback_witness :
    "2" ≠ "" ∧ -(2 ^ 53 : Int) < 10 ∧ (10 : Int) ≤ 2 ^ 53 ∧
    requestedPage (some "2") = parseInt "2" ∧
    (searchQueryMount none "shoes" "ft" "" 10).2 = (.num 1, .num 0, .num (10 - 1)) :=
  ⟨by decide, by norm_num, by norm_num,
    (requestedPage_fallback "shoes" "ft" "" 10).2.2.2.2.1 "2" (by decide),
    (requestedPage_fallback "shoes" "ft" "" 10).2.2.1 (by norm_num) (by norm_num)⟩

/-- C9, as stated, fails: mounted with the page query "90071992547409" and the
page size 1000, `from` is 90071992547408000 and `to` is the double
90071992547408992, not `from + 1000 - 1 = 90071992547408999`. -/
theorem offsets_rounds_large_page :
    (searchQueryMount (some "90071992547409") "shoes" "c" "" 1000).2 =
      (.num 90071992547409, .num 90071992547408000, .num 90071992547408992) ∧
    (searchQueryMount (some "90071992547409") "shoes" "c" "" 1000).2.2.2 ≠
      .num ((90071992547409 - 1) * 1000 + 1000 - 1) := by
  have h : (searchQueryMount (some "90071992547409") "shoes" "c" "" 1000).2 =
      (.num 90071992547409, .num 90071992547408000, .num 90071992547408992) := by
    rw [searchQueryMount_page]
    decide
  refine ⟨h, ?_⟩
  rw [h]
  decide

/-- C9, amended. For a page size `n` with `-2^53 < n ≤ 2^53`: for every
stabilized page `p` such that `p`, `p - 1`, `(p - 1) * n`, `p * n` and
`p * n - 1` have magnitude at most `2^53`, `from = (p - 1) * n` and
`to = from + n - 1`. Whenever the stabilizer resets the page (the query, map or
orderBy differs from the remembered one) the render has page 1, `from = 0` and
`to = n - 1`; so it is for a component mounted at page 3 for "shoes" when the
query becomes "boots". -/
theorem offsets_of_page (n : Int) (hn1 : -(2 ^ 53 : Int) < n) (hn2 : n ≤ 2 ^ 53) :
    (∀ p : Int,
      (∀ x ∈ [p, p - 1, (p - 1) * n, p * n, p * n - 1], x.natAbs ≤ 2 ^ 53) →
      offsets (.num p) n = (.num ((p - 1) * n), .num ((p - 1) * n + n - 1))) ∧
    (∀ (refs : PageRefs) (pageQuery : Option String) (query map orderBy : String),
      (query ≠ refs.queryRef ∨ map ≠ refs.mapRef ∨ orderBy ≠ refs.orderByRef) →
      (searchQueryRender refs pageQuery query map orderBy n).2 =
        (.num 1, .num 0, .num (n - 1))) ∧
    (∀ (pageQuery : Option String) (map orderBy : String),
      (searchQueryMount (some "3") "shoes" map orderBy n).2.1 = .num 3 ∧
      (searchQueryRender (searchQueryMount (some "3") "shoes" map orderBy n).1
          pageQuery "boots" map orderBy n).2 = (.num 1, .num 0, .num (n - 1))) := by
  have hfirst := offsets_first_page n (by rw [exactBound_cast]; exact hn1)
    (by rw [exactBound_cast]; exact hn2)
  have hreset : ∀ (refs : PageRefs) (pageQuery : Option String) (query map orderBy : String),
      (query ≠ refs.queryRef ∨ map ≠ refs.mapRef ∨ orderBy ≠ refs.orderByRef) →
      (searchQueryRender refs pageQuery query map orderBy n).2 =
        (.num 1, .num 0, .num (n - 1)) := by
    intro refs pageQuery query map orderBy h
    have hc : (refs.queryRef != query || refs.mapRef != map ||
        refs.orderByRef != orderBy) = true := by
      rcases h with h | h | h
      · simp [Ne.symm h]
      · simp [Ne.symm h]
      · simp [Ne.symm h]
    simp only [searchQueryRender, useCorrectPage, hc, if_true, DEFAULT_PAGE, hfirst]
  refine ⟨?_, hreset, ?_⟩
  · intro p hp
    apply offsets_exact p n
    intro x hx
    have hbound : exactBound = 2 ^ 53 := rfl
    rw [hbound]
    simp only [List.mem_cons, List.mem_singleton, List.not_mem_nil, or_false] at hx
    rcases hx with rfl | rfl | rfl | rfl | rfl
    · omega
    · exact hp _ (by simp)
    · exact hp _ (by simp)
    · exact hp _ (by simp)
    · exact hp _ (by simp)
  · intro pageQuery map orderBy
    constructor
    · rw [searchQueryMount_page]
      show requestedPage (some "3") = .num 3
      decide
    · apply hreset
      left
      simp [searchQueryMount, searchQueryRender, useCorrectPage, mountRefs]

/-- C9, amended, at page 3 and page size 12: `from = 24` and `to = 35`; and on
a component whose refs remember "shoes" the query "boots" gives page 1,
`from = 0` and `to = 11`. -/
theorem offsets_of_page_witness :
    -(2 ^ 53 : Int) < 12 ∧ (12 : Int) ≤ 2 ^ 53 ∧
    (∀ x ∈ [(3 : Int), 3 - 1, (3 - 1) * 12, 3 * 12, 3 * 12 - 1], x.natAbs ≤ 2 ^ 53) ∧
    offsets (.num 3) 12 = (.num ((3 - 1) * 12), .num ((3 - 1) * 12 + 12 - 1)) ∧
    ("boots" ≠ "shoes" ∨ "c" ≠ "c" ∨ "" ≠ "") ∧
    (searchQueryRender ⟨.num 3, "shoes", "c", ""⟩ (some "3") "boots" "c" "" 12).2 =
      (.num 1, .num 0, .num (12 - 1)) :=
  ⟨by norm_num, by norm_num, by decide,
    (offsets_of_page 12 (by norm_num) (by norm_num)).1 3 (by decide),
    Or.inl (by decide),
    (offsets_of_page 12 (by norm_num) (by norm_num)).2.1 ⟨.num 3, "shoes", "c", ""⟩
      (some "3") "boots" "c" "" (Or.inl (by decide))⟩

/-- C10. When the batch resolves in the tree `t`, `updateTree batch t` returns
a tree `r` and `updateTree batch r` returns `t`; the descent of the second run
stops at the position where the first one stopped. -/
theorem updateTree_twice (t : List Category) (batch : List FacetOperation)
    (ps : List (List Nat)) (h : resolve batch t = some ps) :
    ∃ r, updateTree batch t = some r ∧ updateTree batch r = some t ∧
      ∀ c rest, batch = c :: rest → (stopLevel c.value r).1 = (stopLevel c.value t).1 := by
  cases batch with
  | nil => exact ⟨t, rfl, rfl, fun c rest hc => by cases hc⟩
  | cons c rest =>
    simp only [resolve] at h
    cases hm : matchedFrom (c :: rest) (stopLevel c.value t).2 with
    | none => simp [hm] at h
    | some qs =>
      obtain ⟨r, hr, _⟩ := whileDescend_flipped c.value (c :: rest) t qs hm
      refine ⟨r, hr, whileDescend_involutive c rest t r hr, ?_⟩
      intro c2 rest2 hc
      cases hc
      exact stopLevel_path_eq c rest t r hr

/-- C10 on the tree `[A[A1, A2]]` with `A` selected and the batch `[A1]`: the
batch resolves at the position `[0, 0]`. -/
theorem updateTree_twice_witness :
    resolve [⟨"A1", "c"⟩] [.mk "A" true [.mk "A1" false [], .mk "A2" false []]] =
        some [[0, 0]] ∧
    ∃ r, updateTree [⟨"A1", "c"⟩] [.mk "A" true [.mk "A1" false [], .mk "A2" false []]] =
        some r ∧
      updateTree [⟨"A1", "c"⟩] r = some [.mk "A" true [.mk "A1" false [], .mk "A2" false []]] ∧
      ∀ c rest, [(⟨"A1", "c"⟩ : FacetOperation)] = c :: rest →
        (stopLevel c.value r).1 =
          (stopLevel c.value [.mk "A" true [.mk "A1" false [], .mk "A2" false []]]).1 :=
  have h : resolve [⟨"A1", "c"⟩] [.mk "A" true [.mk "A1" false [], .mk "A2" false []]] =
      some [[0, 0]] := by
    have h1 := stopLevel_of_step "A1" [.mk "A" true [.mk "A1" false [], .mk "A2" false []]] 0
      (.mk "A" true [.mk "A1" false [], .mk "A2" false []])
      (by simp [descentStops]) (by simp) (by simp)
    have h2 := stopLevel_of_stops "A1" [.mk "A1" false [], .mk "A2" false []]
      (by simp [descentStops])
    simp only [Category.children_mk, h2] at h1
    simp [resolve, h1, matchedFrom]
  ⟨h, updateTree_twice _ _ _ h⟩

end SearchResult
